import Mathlib

/-!
# Verification of the dotfiles `Repository` core (src/dotfiles/repository.py)

Shallow embedding of the path-mapping, validation, traversal and pruning
logic of the `Repository` class.  Absolute filesystem paths are modelled as
lists of path segments (the normalized form `py.path.local` maintains:
`/home/u/.bashrc` is `["home", "u", ".bashrc"]`).  The filesystem is a
finite tree of named nodes.  Python's `py.path.local` operations
(`join`, `bestrelpath`, `fnmatch`, `visit`, `listdir`, `check`) are
translated segment-wise below; string-level operations of the source
(`'.%s' % relpath`, `relpath[1:]`) act on the first segment of the relative
path, which is exactly their effect on the `'/'`-joined string form.
-/

namespace DotfilesRepo

/-- An absolute path, as the list of its segments (normalized, no `""`,
`"."` or `".."` segments in well-formed values). -/
abbrev Path := List String

/-- A well-formed (normalized) path segment: nonempty and not a relative
special segment.  `py.path.local` stores `abspath(normpath(...))`, whose
segments all satisfy this. -/
def validSeg (s : String) : Bool := s ≠ "" && s ≠ "." && s ≠ ".."

/-- All segments of the path are well-formed. -/
def validPath (p : Path) : Bool := p.all validSeg

/-- Accumulator pass of `os.path.normpath` on an absolute path: drop empty
and `"."` segments, let `".."` pop the previous segment (at the root it is
dropped, as `normpath("/..") = "/"`). -/
def normAux (acc : List String) : List String → List String
  | [] => acc
  | s :: rest =>
    if s = "" || s = "." then normAux acc rest
    else if s = ".." then normAux acc.dropLast rest
    else normAux (acc ++ [s]) rest

/-- `os.path.normpath` on the segments of an absolute path. -/
def normpathSegs (p : Path) : Path := normAux [] p

/-- `py.path.local.join`: concatenate and normalize (`join` strips
separators from each argument and applies `normpath` to the result; both
effects are captured by `normpathSegs` dropping empty segments). -/
def pjoin (root rel : Path) : Path := normpathSegs (root ++ rel)

/-- `py.path.local.common`: the longest common ancestor of two absolute
paths (their longest common segment-list prefix). -/
def commonRoot : Path → Path → Path
  | a :: as_, b :: bs => if a = b then a :: commonRoot as_ bs else []
  | _, _ => []

/-- `py.path.local.bestrelpath`: the relative path (as segments) from
`root` to `p`; `"."` when they are equal, with `".."` steps through the
common ancestor otherwise. -/
def bestrel (root p : Path) : Path :=
  if root = p then ["."]
  else
    let c := commonRoot root p
    List.replicate (root.length - c.length) ".." ++ p.drop c.length

/-- The string-level operation `'.%s' % relpath` of `_target_to_name`:
prepend a dot to the joined relative path, i.e. to its first segment. -/
def dotPre : Path → Path
  | [] => []
  | s :: rest => ("." ++ s) :: rest

/-- The string-level operation `relpath[1:]` of `_name_to_target`: drop
the first character of the joined relative path, i.e. of its first
segment (a first segment emptied this way vanishes under `join`'s
normalization, matching `strip(sep)`/`normpath` in the source). -/
def dotStrip : Path → Path
  | [] => []
  | s :: rest => (s.drop 1) :: rest

/-- `Repository._target_to_name`: the expected symlink (home-side path)
for the given repository target. -/
def _target_to_name (dot : Bool) (homedir repodir : Path) (target : Path) : Path :=
  let relpath := bestrel repodir target
  if dot then pjoin homedir relpath
  else pjoin homedir (dotPre relpath)

/-- `Repository._name_to_target`: the expected repository target for the
given symlink (home-side path). -/
def _name_to_target (dot : Bool) (homedir repodir : Path) (name : Path) : Path :=
  let relpath := bestrel homedir name
  if dot then pjoin repodir relpath
  else pjoin repodir (dotStrip relpath)

/-! ## Basic path lemmas -/

theorem normAux_valid (q : List String) :
    ∀ acc, validPath q → normAux acc q = acc ++ q := by
  induction q with
  | nil => intro acc _; simp [normAux]
  | cons s rest ih =>
    intro acc hv
    have hs : validSeg s := by
      have := hv
      simp [validPath, List.all_cons] at this
      exact this.1
    have hrest : validPath rest := by
      have := hv
      simp [validPath, List.all_cons] at this
      simp [validPath]
      exact this.2
    simp [validSeg] at hs
    obtain ⟨⟨h1, h2⟩, h3⟩ := hs
    simp [normAux, h1, h2, h3, ih _ hrest]

theorem normpathSegs_valid (p : Path) (h : validPath p) : normpathSegs p = p := by
  simpa [normpathSegs] using normAux_valid p [] h

theorem pjoin_valid (root rel : Path) (h : validPath (root ++ rel)) :
    pjoin root rel = root ++ rel := normpathSegs_valid _ h

theorem commonRoot_append (root x : Path) : commonRoot root (root ++ x) = root := by
  induction root with
  | nil =>
    cases x with
    | nil => simp [commonRoot]
    | cons a as_ => simp [commonRoot]
  | cons a as_ ih => simp [commonRoot, ih]

theorem bestrel_append (root x : Path) (hx : x ≠ []) :
    bestrel root (root ++ x) = x := by
  have hne : root ≠ root ++ x := by
    intro h
    have : root.length = root.length + x.length := by
      conv_lhs => rw [h]
      simp
    have : x.length = 0 := by omega
    exact hx (List.length_eq_zero.mp this)
  simp [bestrel, hne, commonRoot_append, List.drop_left]

/-! ## Filesystem model

A finite tree of named nodes; `py.path.local.check(dir=1)` and
`check(dir=0)` become kind tests on the node found by path lookup. -/

/-- A filesystem node: a plain file, or a directory holding an ordered
list of (basename, node) children (the order models `os.listdir` order,
which `visit(..., sort=False)` follows). -/
inductive FSNode where
  | file : FSNode
  | dir : List (String × FSNode) → FSNode

/-- Find the child of a directory-listing with the given basename. -/
def findChild (cs : List (String × FSNode)) (n : String) : Option FSNode :=
  match cs with
  | [] => none
  | (m, c) :: rest => if m = n then some c else findChild rest n

/-- Resolve an absolute path (list of segments) in the tree rooted at `/`. -/
def lookup : FSNode → Path → Option FSNode
  | node, [] => some node
  | .file, _ :: _ => none
  | .dir cs, n :: rest =>
    match findChild cs n with
    | some c => lookup c rest
    | none => none

/-- Whether a node is a directory (`check(dir=1)` on an existing node). -/
def isDirNode : FSNode → Bool
  | .dir _ => true
  | .file => false

/-- Whether a node is an empty directory (`not len(dir.listdir())`). -/
def isEmptyDir : FSNode → Bool
  | .dir [] => true
  | _ => false

/-- `path.check(dir=1)`: the path exists and is a directory. -/
def checkDir (fs : FSNode) (p : Path) : Bool :=
  match lookup fs p with
  | some n => isDirNode n
  | none => false

/-- `name.fnmatch('%s/*' % root)`: `fnmatch`'s `*` matches any characters
(including separators), so the pattern holds exactly when the path lies
strictly below `root`. -/
def fnmatchUnder (root p : Path) : Bool :=
  root.length < p.length && p.take root.length = root

/-- `py.path.local.basename`: the last path segment (empty for `/`). -/
def basenameOf (p : Path) : String := p.getLastD ""

/-! ## Repository, errors, Dotfile -/

/-- The configuration fields of `Repository.__init__`. -/
structure Repository where
  repodir : Path
  homedir : Path
  ignore : List String
  dot : Bool

/-- The `DotfileException` hierarchy of `dotfiles/exceptions.py` raised by
`Repository._dotfile`. -/
inductive DotfileException where
  | notRootedInHome : DotfileException
  | inRepository : DotfileException
  | targetIgnored : DotfileException
  | isDirectory : DotfileException
deriving Repr, DecidableEq

/-- The `Dotfile` entity: a home-side `name` paired with a repository-side
`target`. -/
structure Dotfile where
  name : Path
  target : Path
deriving Repr, DecidableEq

/-- `Repository._dotfile`: validate a home path and build its `Dotfile`. -/
def _dotfile (R : Repository) (fs : FSNode) (name : Path) :
    Except DotfileException Dotfile :=
  let target := _name_to_target R.dot R.homedir R.repodir name
  if ¬fnmatchUnder R.homedir name then .error .notRootedInHome
  else if fnmatchUnder R.repodir name then .error .inRepository
  else if R.ignore.contains (basenameOf target) then .error .targetIgnored
  else if checkDir fs name then .error .isDirectory
  else .ok ⟨name, target⟩

/-! ## Repository._contents: recursive traversal (`py.path` `visit`)

`visit(fil, rec, bf=False, sort=False)` yields, for each directory, first
the results of recursing into its subdirectories that satisfy `rec`
(in listing order), then its own entries satisfying `fil` (in listing
order).  `_contents` uses `fil = (not a directory) and (basename not
ignored)` and `rec = basename not ignored`. -/

/-- `Repository._contents`: all unignored non-directory entries below a
directory, in `visit` order (subdirectory contents first). -/
def _contents (ignore : List String) : Path → FSNode → List Path
  | _, .file => []
  | base, .dir cs =>
    (cs.attach.flatMap fun ⟨(n, c), h⟩ =>
      if isDirNode c && !(ignore.contains n) then _contents ignore (base ++ [n]) c
      else [])
    ++ cs.filterMap fun (n, c) =>
      if !(isDirNode c) && !(ignore.contains n) then some (base ++ [n]) else none
termination_by _ node => sizeOf node
decreasing_by
  have h1 := List.sizeOf_lt_of_mem h
  have h2 : sizeOf (n, c) = 1 + sizeOf n + sizeOf c := by simp
  simp only [FSNode.dir.sizeOf_spec]
  omega

/-- `self._contents(path)` on an absolute path of the filesystem. -/
def _contents_at (ignore : List String) (fs : FSNode) (p : Path) : List Path :=
  match lookup fs p with
  | some node => _contents ignore p node
  | none => []

/-! ## Structural measures on the filesystem tree -/

/-- Number of nodes of a filesystem tree. -/
def sizeFS : FSNode → Nat
  | .file => 1
  | .dir cs => 1 + (cs.attach.map fun ⟨(n, c), h⟩ => sizeFS c).sum
termination_by node => sizeOf node
decreasing_by
  have h1 := List.sizeOf_lt_of_mem h
  have h2 : sizeOf (n, c) = 1 + sizeOf n + sizeOf c := by simp
  simp only [FSNode.dir.sizeOf_spec]
  omega

/-- Height of a filesystem tree: every resolvable path has at most this
many segments. -/
def heightFS : FSNode → Nat
  | .file => 0
  | .dir cs => 1 + (cs.attach.map fun ⟨(n, c), h⟩ => heightFS c).foldr max 0
termination_by node => sizeOf node
decreasing_by
  have h1 := List.sizeOf_lt_of_mem h
  have h2 : sizeOf (n, c) = 1 + sizeOf n + sizeOf c := by simp
  simp only [FSNode.dir.sizeOf_spec]
  omega

/-- Structural induction principle for the nested inductive `FSNode`. -/
theorem FSNode.indOn {P : FSNode → Prop} (hfile : P .file)
    (hdir : ∀ cs, (∀ n c, (n, c) ∈ cs → P c) → P (.dir cs)) :
    ∀ node, P node := by
  have key : ∀ k node, sizeOf (node : FSNode) ≤ k → P node := by
    intro k
    induction k with
    | zero =>
      intro node h
      cases node <;> simp_arith at h
    | succ k ih =>
      intro node h
      cases node with
      | file => exact hfile
      | dir cs =>
        refine hdir cs ?_
        intro n c hm
        apply ih
        have h1 : sizeOf (n, c) < sizeOf cs := List.sizeOf_lt_of_mem hm
        have h2 : sizeOf (FSNode.dir cs) = 1 + sizeOf cs := by simp
        have h3 : sizeOf (n, c) = 1 + sizeOf n + sizeOf c := by simp
        omega
  exact fun node => key (sizeOf node) node le_rfl

theorem findChild_mem {cs : List (String × FSNode)} {n : String} {c : FSNode}
    (h : findChild cs n = some c) : (n, c) ∈ cs := by
  induction cs with
  | nil => simp [findChild] at h
  | cons hd rest ih =>
    obtain ⟨m, d⟩ := hd
    by_cases hmn : m = n
    · subst hmn
      simp [findChild] at h
      simp [h]
    · simp [findChild, hmn] at h
      exact List.mem_cons_of_mem _ (ih h)

theorem le_foldr_max {a : Nat} {l : List Nat} (h : a ∈ l) :
    ∀ b, a ≤ l.foldr max b := by
  induction l with
  | nil => simp at h
  | cons x rest ih =>
    intro b
    rcases List.mem_cons.mp h with h1 | h1
    · subst h1; exact Nat.le_max_left _ _
    · exact le_trans (ih h1 b) (Nat.le_max_right _ _)

theorem heightFS_child {cs : List (String × FSNode)} {n : String} {c : FSNode}
    (hm : (n, c) ∈ cs) : heightFS c < heightFS (FSNode.dir cs) := by
  simp only [heightFS]
  rw [Nat.add_comm, Nat.lt_add_one_iff]
  apply le_foldr_max
  exact List.mem_map.mpr ⟨⟨(n, c), hm⟩, List.mem_attach _ _, rfl⟩

theorem sizeFS_child {cs : List (String × FSNode)} {n : String} {c : FSNode}
    (hm : (n, c) ∈ cs) : sizeFS c < sizeFS (FSNode.dir cs) := by
  simp only [sizeFS]
  rw [Nat.add_comm, Nat.lt_add_one_iff]
  apply List.single_le_sum (fun x _ => Nat.zero_le x)
  exact List.mem_map.mpr ⟨⟨(n, c), hm⟩, List.mem_attach _ _, rfl⟩

theorem lookup_height {fs : FSNode} {p : Path} {n : FSNode}
    (h : lookup fs p = some n) : p.length ≤ heightFS fs := by
  induction p generalizing fs with
  | nil => simp
  | cons s rest ih =>
    cases fs with
    | file => simp [lookup] at h
    | dir cs =>
      simp only [lookup] at h
      cases hfc : findChild cs s with
      | none => rw [hfc] at h; simp at h
      | some c =>
        rw [hfc] at h
        have hm : (s, c) ∈ cs := findChild_mem hfc
        have hrec : rest.length ≤ heightFS c := ih h
        have := lt_of_le_of_lt hrec (heightFS_child hm)
        simp only [List.length_cons]
        omega

theorem lookup_size {fs : FSNode} {p : Path} {n : FSNode}
    (h : lookup fs p = some n) : sizeFS n ≤ sizeFS fs := by
  induction p generalizing fs with
  | nil =>
    simp only [lookup, Option.some.injEq] at h
    subst h; exact le_rfl
  | cons s rest ih =>
    cases fs with
    | file => simp [lookup] at h
    | dir cs =>
      simp only [lookup] at h
      cases hfc : findChild cs s with
      | none => rw [hfc] at h; simp at h
      | some c =>
        rw [hfc] at h
        have hm : (s, c) ∈ cs := findChild_mem hfc
        exact le_of_lt (lt_of_le_of_lt (ih h) (sizeFS_child hm))

theorem lookup_append (fs : FSNode) (p q : Path) :
    lookup fs (p ++ q) = (lookup fs p).bind fun n => lookup n q := by
  induction p generalizing fs with
  | nil => simp [lookup]
  | cons s rest ih =>
    cases fs with
    | file => simp [lookup]
    | dir cs =>
      simp only [List.cons_append, lookup]
      cases findChild cs s with
      | none => simp
      | some c => simp [ih]

/-- Unfolding of `_contents` on a directory with the `attach` scaffolding
removed. -/
theorem _contents_dir (ignore : List String) (base : Path)
    (cs : List (String × FSNode)) :
    _contents ignore base (.dir cs) =
      (cs.flatMap fun nc =>
        if isDirNode nc.2 && !(ignore.contains nc.1) then
          _contents ignore (base ++ [nc.1]) nc.2
        else [])
      ++ cs.filterMap fun nc =>
        if !(isDirNode nc.2) && !(ignore.contains nc.1) then some (base ++ [nc.1])
        else none := by
  rw [_contents]
  congr 1
  rw [List.flatMap_subtype, List.unattach_attach]
  intro x h
  cases x
  rfl

theorem _contents_file (ignore : List String) (base : Path) :
    _contents ignore base .file = [] := by
  rw [_contents]

/-- `sizeFS` on a directory with the `attach` scaffolding removed. -/
theorem sizeFS_dir (cs : List (String × FSNode)) :
    sizeFS (.dir cs) = 1 + (cs.map fun nc => sizeFS nc.2).sum := by
  rw [sizeFS]
  congr 2
  rw [List.map_subtype, List.unattach_attach]
  intro x h
  cases x
  rfl

/-- Every path produced by `_contents` strictly extends the base path. -/
theorem _contents_extends (ignore : List String) :
    ∀ node base q, q ∈ _contents ignore base node → base.length < q.length := by
  intro node
  induction node using FSNode.indOn with
  | hfile => intro base q hq; rw [_contents_file] at hq; simp at hq
  | hdir cs ih =>
    intro base q hq
    rw [_contents_dir] at hq
    rcases List.mem_append.mp hq with hq | hq
    · obtain ⟨nc, hnc, hin⟩ := List.mem_flatMap.mp hq
      obtain ⟨n, c⟩ := nc
      by_cases hc : isDirNode c && !(ignore.contains n)
      · rw [if_pos hc] at hin
        have := ih n c hnc (base ++ [n]) q hin
        simp at this
        omega
      · rw [if_neg hc] at hin
        simp at hin
    · obtain ⟨nc, hnc, hin⟩ := List.mem_filterMap.mp hq
      by_cases hc : !(isDirNode nc.2) && !(ignore.contains nc.1)
      · rw [if_pos hc] at hin
        have : q = base ++ [nc.1] := by
          cases hin; rfl
        subst this
        simp
      · rw [if_neg hc] at hin
        simp at hin

theorem sizeFS_pos (node : FSNode) : 1 ≤ sizeFS node := by
  cases node with
  | file => simp [sizeFS]
  | dir cs => rw [sizeFS_dir]; omega

/-- `_contents` yields fewer entries than the tree has nodes. -/
theorem _contents_count (ignore : List String) :
    ∀ node base, (_contents ignore base node).length + 1 ≤ sizeFS node := by
  have key : ∀ k node, sizeOf (node : FSNode) ≤ k →
      ∀ base, (_contents ignore base node).length + 1 ≤ sizeFS node := by
    intro k
    induction k with
    | zero =>
      intro node h
      cases node <;> simp_arith at h
    | succ k ih =>
      intro node h
      cases node with
      | file =>
        intro base
        rw [_contents_file]
        simp [sizeFS]
      | dir cs =>
        cases cs with
        | nil =>
          intro base
          rw [_contents_dir, sizeFS_dir]
          simp
        | cons nc rest =>
          intro base
          obtain ⟨n, c⟩ := nc
          have hszdir : sizeOf (FSNode.dir ((n, c) :: rest)) =
              1 + (1 + (1 + sizeOf n + sizeOf c) + sizeOf rest) := by simp
          have hc2 : sizeOf c ≤ k := by omega
          have hrest : sizeOf (FSNode.dir rest) ≤ k := by
            have h3 : sizeOf (FSNode.dir rest) = 1 + sizeOf rest := by simp
            omega
          have ihc := ih c hc2 (base ++ [n])
          have ihrest := ih (FSNode.dir rest) hrest base
          have hpos := sizeFS_pos c
          rw [_contents_dir, sizeFS_dir] at ihrest ⊢
          cases hd : isDirNode c <;> cases hg : ignore.contains n <;>
            simp only [List.flatMap_cons, List.filterMap_cons, List.map_cons,
              List.sum_cons, List.length_append, hd, hg, Bool.not_true,
              Bool.not_false, Bool.true_and, Bool.false_and, Bool.and_true,
              Bool.and_false, Bool.false_eq_true, Bool.true_eq_false,
              if_true, if_false, List.nil_append, List.length_cons,
              List.length_append] at ihrest ⊢ <;>
            omega
  exact fun node => key (sizeOf node) node le_rfl

/-! ## Repository.dotfiles: directory expansion loop

The source iterates over the working list while mutating it:

    for path in paths:
        if path.check(dir=1):
            paths.extend(self._contents(path))
            paths.remove(path)

`list.remove` deletes the first occurrence of the current element and
shifts the tail left, so the Python iterator (which advances by index)
skips the element immediately after a removed directory.  `expandLoop`
models the loop state as the processed prefix (`done`, everything before
the iterator index) and pending suffix (`todo`). -/

/-- Weight of a pending path in the termination measure of the expansion
loop: appended `_contents` entries are strictly longer than the expanded
directory path and there are fewer of them than `sizeFS fs`. -/
def expWeight (fs : FSNode) (p : Path) : Nat :=
  (sizeFS fs + 1) ^ (heightFS fs + 1 - p.length)

/-- Termination measure: total weight of the pending suffix. -/
def expMeasure (fs : FSNode) (todo : List Path) : Nat :=
  (todo.map (expWeight fs)).sum

theorem expWeight_pos (fs : FSNode) (p : Path) : 1 ≤ expWeight fs p :=
  Nat.one_le_iff_ne_zero.mpr (pow_ne_zero _ (Nat.succ_ne_zero _))

theorem expMeasure_append (fs : FSNode) (a b : List Path) :
    expMeasure fs (a ++ b) = expMeasure fs a + expMeasure fs b := by
  simp [expMeasure]

theorem expMeasure_drop_le (fs : FSNode) (l : List Path) (n : Nat) :
    expMeasure fs (l.drop n) ≤ expMeasure fs l := by
  conv_rhs => rw [← List.take_append_drop n l]
  rw [expMeasure_append]
  omega

/-- The state after one directory step: `extend` appends the directory's
contents, `remove` deletes the first occurrence of the current element,
and the iterator index advances past the element that shifted into the
current slot. -/
theorem erase_take_drop (done rest app : List Path) (p : Path) :
    ((done ++ p :: (rest ++ app)).erase p).drop (done.length + 1) =
      (rest ++ app).drop 1 := by
  by_cases hp : p ∈ done
  · rw [List.erase_append_left _ hp]
    have hlen : (done.erase p).length = done.length - 1 :=
      List.length_erase_of_mem hp
    have hpos : 0 < done.length := List.length_pos_of_mem hp
    have h2 : done.length + 1 = (done.erase p).length + 2 := by omega
    rw [h2, List.drop_append 2, List.drop_succ_cons]
  · rw [List.erase_append_right _ hp, List.erase_cons_head,
      List.drop_append 1]

/-- One directory's appended contents weigh strictly less than the
directory entry they replace. -/
theorem expMeasure_app_lt (ignore : List String) (fs : FSNode) (p : Path)
    (h : checkDir fs p = true) :
    expMeasure fs (_contents_at ignore fs p) < expWeight fs p := by
  unfold checkDir at h
  cases hl : lookup fs p with
  | none => rw [hl] at h; simp at h
  | some node =>
    rw [hl] at h
    have hp : p.length ≤ heightFS fs := lookup_height hl
    have hsz : sizeFS node ≤ sizeFS fs := lookup_size hl
    set B := sizeFS fs + 1 with hB
    set k := heightFS fs + 1 - p.length with hk
    have hk1 : 1 ≤ k := by omega
    have happ : _contents_at ignore fs p = _contents ignore p node := by
      unfold _contents_at; rw [hl]
    rw [happ]
    have hcount := _contents_count ignore node p
    have hbound : ∀ w ∈ (_contents ignore p node).map (expWeight fs),
        w ≤ B ^ (k - 1) := by
      intro w hw
      obtain ⟨q, hq, rfl⟩ := List.mem_map.mp hw
      have hlen : p.length < q.length := _contents_extends ignore node p q hq
      unfold expWeight
      apply Nat.pow_le_pow_right (by omega)
      omega
    have hsum : expMeasure fs (_contents ignore p node) ≤
        (_contents ignore p node).length * B ^ (k - 1) := by
      have := List.sum_le_card_nsmul ((_contents ignore p node).map (expWeight fs))
        (B ^ (k - 1)) hbound
      simpa [expMeasure, smul_eq_mul] using this
    have hlt : (_contents ignore p node).length * B ^ (k - 1) < B ^ k := by
      have hle : (_contents ignore p node).length < B := by omega
      have hpow : 0 < B ^ (k - 1) := Nat.pos_pow_of_pos _ (by omega)
      calc (_contents ignore p node).length * B ^ (k - 1)
          < B * B ^ (k - 1) := by
            exact Nat.mul_lt_mul_of_lt_of_le hle le_rfl hpow
        _ = B ^ k := by
            conv_rhs => rw [show k = (k - 1) + 1 by omega]
            rw [pow_succ]
            ring
    have : expWeight fs p = B ^ k := rfl
    omega

/-- The mutating loop of `Repository.dotfiles`: `done` is the part of the
working list before the iterator index, `todo` the part from the index on.
A directory entry is expanded (`extend` + `remove`), which shifts the
following entry into the already-visited region. -/
def expandLoop (ignore : List String) (fs : FSNode) :
    List Path → List Path → List Path
  | done, [] => done
  | done, p :: rest =>
    if checkDir fs p then
      let full := (done ++ p :: (rest ++ _contents_at ignore fs p)).erase p
      expandLoop ignore fs (full.take (done.length + 1))
        (full.drop (done.length + 1))
    else
      expandLoop ignore fs (done ++ [p]) rest
termination_by _ todo => expMeasure fs todo
decreasing_by
  · rw [erase_take_drop]
    have h1 := expMeasure_drop_le fs (rest ++ _contents_at ignore fs p) 1
    have h2 := expMeasure_append fs rest (_contents_at ignore fs p)
    have h3 := expMeasure_app_lt ignore fs p (by assumption)
    have h4 : expMeasure fs (p :: rest) = expWeight fs p + expMeasure fs rest := by
      simp [expMeasure]
    omega
  · have h4 : expMeasure fs (p :: rest) = expWeight fs p + expMeasure fs rest := by
      simp [expMeasure]
    have := expWeight_pos fs p
    omega

/-- The `construct` closure of `Repository.dotfiles` applied to every
expanded path: successful validations are collected in input order; each
failure is echoed (second component, modelling the message-output
collaborator) and its entry omitted. -/
def constructAll (R : Repository) (fs : FSNode) :
    List Path → List Dotfile × List (Path × DotfileException)
  | [] => ([], [])
  | p :: rest =>
    let acc := constructAll R fs rest
    match _dotfile R fs p with
    | .ok d => (d :: acc.1, acc.2)
    | .error e => (acc.1, (p, e) :: acc.2)

/-- `Repository.dotfiles`.  The source first deduplicates the caller's
paths with `list(set(...))`, whose iteration order is unspecified
(Python string hashing); `paths` here is that deduplicated working list
in its resulting order.  Directories are expanded by the mutating loop,
then `construct` is mapped over the final list. -/
def dotfiles (R : Repository) (fs : FSNode) (paths : List Path) :
    List Dotfile × List (Path × DotfileException) :=
  constructAll R fs (expandLoop R.ignore fs [] paths)

/-! ## Repository.contents -/

/-- `str()` of a `py.path.local`: the `'/'`-joined absolute path. -/
def pathStr (p : Path) : String := "/" ++ String.intercalate "/" p

/-- Python's `str <=`: lexicographic comparison by code point. -/
def strLeB : List Char → List Char → Bool
  | [], _ => true
  | _ :: _, [] => false
  | c :: cs, d :: ds =>
    if c.toNat < d.toNat then true
    else if d.toNat < c.toNat then false
    else strLeB cs ds

/-- Comparison used by `sorted(..., key=attrgetter('name'))`: `py.path`
values order by their path string. -/
def nameLe (a b : Dotfile) : Bool :=
  strLeB (pathStr a.name).data (pathStr b.name).data

/-- Insert into a sorted list, after any equal keys (stability). -/
def insortOne (x : Dotfile) : List Dotfile → List Dotfile
  | [] => [x]
  | y :: ys => if nameLe x y then x :: y :: ys else y :: insortOne x ys

/-- Python's stable `sorted` by the `name` key, as insertion sort. -/
def sortedByName (l : List Dotfile) : List Dotfile := l.foldr insortOne []

/-- `Repository.contents`: a `Dotfile` for each unignored file in the
repository, sorted by home-side name. -/
def contents (R : Repository) (fs : FSNode) : List Dotfile :=
  let files := match lookup fs R.repodir with
    | some node => _contents R.ignore R.repodir node
    | none => []
  sortedByName (files.map fun target =>
    Dotfile.mk (_target_to_name R.dot R.homedir R.repodir target) target)

/-! ## Repository.prune

`prune` visits directories with `fil = (is a directory) and (basename not
ignored)` and `rec = basename not ignored`, removing each visited
directory that is empty at visit time.  With `bf=False` the generator
yields a directory's (rec-eligible) subdirectory results before the
directory itself, so removals inside a subtree happen before the subtree
root is examined: the loop is a post-order sweep.  `pruneNode` performs
it as pure recursion: first recurse into unignored subdirectories, then
drop those children that ended up as empty unignored directories.  The
repository root itself is never yielded, hence never removed. -/

/-- One `prune()` call, acting on the subtree rooted at the repository
directory. -/
def pruneNode (ignore : List String) : FSNode → FSNode
  | .file => .file
  | .dir cs =>
    let cs1 := cs.attach.map fun ⟨(n, c), h⟩ =>
      if isDirNode c && !(ignore.contains n) then (n, pruneNode ignore c)
      else (n, c)
    .dir (cs1.filter fun nc => !(isEmptyDir nc.2 && !(ignore.contains nc.1)))
termination_by node => sizeOf node
decreasing_by
  have h1 := List.sizeOf_lt_of_mem h
  have h2 : sizeOf (n, c) = 1 + sizeOf n + sizeOf c := by simp
  simp only [FSNode.dir.sizeOf_spec]
  omega

/-- `Repository.prune` applied to the tree at `repodir`. -/
def prune (R : Repository) (fs : FSNode) : FSNode :=
  match lookup fs R.repodir with
  | some node => pruneNode R.ignore node
  | none => .file

/-- `pruneNode` on a directory with the `attach` scaffolding removed. -/
theorem pruneNode_dir (ignore : List String) (cs : List (String × FSNode)) :
    pruneNode ignore (.dir cs) =
      .dir ((cs.map fun nc =>
        if isDirNode nc.2 && !(ignore.contains nc.1) then
          (nc.1, pruneNode ignore nc.2)
        else nc).filter fun nc =>
          !(isEmptyDir nc.2 && !(ignore.contains nc.1))) := by
  rw [pruneNode]
  congr 2
  rw [List.map_subtype, List.unattach_attach]
  intro x h
  cases x
  rfl

/-! ## String-level facts about the dot manipulation -/

theorem dot_drop (s : String) : ("." ++ s).drop 1 = s := by
  apply String.ext
  rw [String.data_drop, String.data_append]
  rfl

theorem dot_take {s : String} (h : s.take 1 = ".") : "." ++ s.drop 1 = s := by
  apply String.ext
  rw [String.data_append, String.data_drop]
  have hd : s.data.take 1 = ['.'] := by
    have h2 := congrArg String.data h
    rwa [String.data_take] at h2
  conv_rhs => rw [← List.take_append_drop 1 s.data]
  rw [hd]

theorem validSeg_dotPre {s : String} (hs : validSeg s) : validSeg ("." ++ s) := by
  simp only [validSeg, Bool.and_eq_true, decide_eq_true_eq] at hs ⊢
  obtain ⟨⟨h1, h2⟩, h3⟩ := hs
  refine ⟨⟨?_, ?_⟩, ?_⟩
  · intro h
    have := congrArg String.data h
    rw [String.data_append] at this
    simp at this
  · intro h
    have := congrArg String.data h
    rw [String.data_append] at this
    apply h1
    apply String.ext
    simpa using this
  · intro h
    have := congrArg String.data h
    rw [String.data_append] at this
    apply h2
    apply String.ext
    simpa using this

theorem validPath_append {a b : Path} :
    validPath (a ++ b) = (validPath a && validPath b) := by
  simp [validPath, List.all_append]

theorem validPath_append_cons {a c : Path} {b : String} (ha : validPath a)
    (hb : validSeg b) (hc : validPath c) : validPath (a ++ b :: c) := by
  rw [validPath_append, ha, Bool.true_and]
  simp only [validPath, List.all_cons, hb, Bool.true_and]
  exact hc

theorem validPath_cons_split {b : String} {c : Path}
    (h : validPath (b :: c)) : validSeg b ∧ validPath c := by
  simp only [validPath, List.all_cons, Bool.and_eq_true] at h
  exact h

/-! ## Claim theorems: path mapping (C1, C9) -/

/-- **C1 (counterexample)**: with `dotConvention = false` the two maps are
not mutually inverse on all home paths: the home path `~/afile` (no
leading dot) maps to repository target `repo/file`, which maps back to
`~/.file`, not `~/afile` — so the pair is not a bijection as the claim
states. -/
theorem C1_counterexample :
    _target_to_name false ["home"] ["repo"]
        (_name_to_target false ["home"] ["repo"] ["home", "afile"]) ≠
      ["home", "afile"] := by
  decide

/-- **C1 (amended)**: for any configuration, `homeToRepo ∘ repoToHome` is
the identity on repository-relative paths; the reverse composition
`repoToHome ∘ homeToRepo` is the identity on home-relative paths when
`dotConvention = true`, and with `dotConvention = false` exactly on home
paths whose first segment starts with a dot (in particular `~/.bashrc`
maps to `repo/bashrc` and back); the maps are not a bijection on all
home paths. -/
theorem t2n_eval (dot : Bool) (home repo x : Path) (hx0 : x ≠ [])
    (hv : validPath (home ++ (if dot then x else dotPre x))) :
    _target_to_name dot home repo (repo ++ x) =
      home ++ (if dot then x else dotPre x) := by
  rw [_target_to_name, bestrel_append _ _ hx0]
  cases dot with
  | true => simpa using pjoin_valid home x (by simpa using hv)
  | false => simpa using pjoin_valid home (dotPre x) (by simpa using hv)

theorem n2t_eval (dot : Bool) (home repo x : Path) (hx0 : x ≠ [])
    (hv : validPath (repo ++ (if dot then x else dotStrip x))) :
    _name_to_target dot home repo (home ++ x) =
      repo ++ (if dot then x else dotStrip x) := by
  rw [_name_to_target, bestrel_append _ _ hx0]
  cases dot with
  | true => simpa using pjoin_valid repo x (by simpa using hv)
  | false => simpa using pjoin_valid repo (dotStrip x) (by simpa using hv)

theorem C1_amended (dot : Bool) (home repo p q : Path)
    (hh : validPath home) (hr : validPath repo)
    (hp : validPath p) (hp0 : p ≠ [])
    (hq : validPath q) (hq0 : q ≠ [])
    (hcond : dot = true ∨
      ∃ s rest, q = s :: rest ∧ s.take 1 = "." ∧ validSeg (s.drop 1)) :
    _name_to_target dot home repo (_target_to_name dot home repo (repo ++ p)) =
        repo ++ p ∧
    _target_to_name dot home repo (_name_to_target dot home repo (home ++ q)) =
        home ++ q := by
  cases dot with
  | true =>
    have hvp : validPath (home ++ p) := by rw [validPath_append, hh, hp]; rfl
    have hvp2 : validPath (repo ++ p) := by rw [validPath_append, hr, hp]; rfl
    have hvq : validPath (repo ++ q) := by rw [validPath_append, hr, hq]; rfl
    have hvq2 : validPath (home ++ q) := by rw [validPath_append, hh, hq]; rfl
    constructor
    · rw [t2n_eval true home repo p hp0 (by simpa using hvp)]
      simpa using n2t_eval true home repo p hp0 (by simpa using hvp2)
    · rw [n2t_eval true home repo q hq0 (by simpa using hvq)]
      simpa using t2n_eval true home repo q hq0 (by simpa using hvq2)
  | false =>
    constructor
    · obtain ⟨s, pr, rfl⟩ : ∃ s pr, p = s :: pr := by
        cases p with
        | nil => exact absurd rfl hp0
        | cons s pr => exact ⟨s, pr, rfl⟩
      obtain ⟨hs, hpr⟩ := validPath_cons_split hp
      have hvdp : validPath (home ++ (if false then s :: pr else dotPre (s :: pr))) := by
        simp only [Bool.false_eq_true, if_false, dotPre]
        exact validPath_append_cons hh (validSeg_dotPre hs) hpr
      rw [t2n_eval false home repo (s :: pr) (by simp) hvdp]
      simp only [Bool.false_eq_true, if_false]
      have h2 := n2t_eval false home repo (dotPre (s :: pr)) (by simp [dotPre])
        (by
          simp only [Bool.false_eq_true, if_false, dotPre, dotStrip, dot_drop]
          exact validPath_append_cons hr hs hpr)
      rw [h2]
      simp only [Bool.false_eq_true, if_false, dotPre, dotStrip, dot_drop]
    · rcases hcond with hcond | ⟨s, rest, rfl, hdot1, hdrop⟩
      · simp at hcond
      obtain ⟨hs, hrest⟩ := validPath_cons_split hq
      have hvds : validPath (repo ++ (if false then s :: rest else dotStrip (s :: rest))) := by
        simp only [Bool.false_eq_true, if_false, dotStrip]
        exact validPath_append_cons hr hdrop hrest
      rw [n2t_eval false home repo (s :: rest) (by simp) hvds]
      simp only [Bool.false_eq_true, if_false, dotStrip]
      have h2 := t2n_eval false home repo (s.drop 1 :: rest) (by simp)
        (by
          simp only [Bool.false_eq_true, if_false, dotPre, dot_take hdot1]
          exact validPath_append_cons hh hs hrest)
      rw [h2]
      simp only [Bool.false_eq_true, if_false, dotPre, dot_take hdot1]

/-- **C1 (witness)**: concrete instance of the amended roundtrip at
`dotConvention = false`, repository path `repo/bashrc` and home path
`~/.bashrc` (the example named by the claim). -/
theorem C1_witness :
    _name_to_target false ["home"] ["repo"]
        (_target_to_name false ["home"] ["repo"] (["repo"] ++ ["bashrc"])) =
      ["repo"] ++ ["bashrc"] ∧
    _target_to_name false ["home"] ["repo"]
        (_name_to_target false ["home"] ["repo"] (["home"] ++ [".bashrc"])) =
      ["home"] ++ [".bashrc"] :=
  C1_amended false ["home"] ["repo"] ["bashrc"] [".bashrc"]
    (by decide) (by decide) (by decide) (by decide) (by decide) (by decide)
    (Or.inr ⟨".bashrc", [], rfl, by decide, by decide⟩)

/-- **C9**: with `dotConvention = false`, `_name_to_target` removes the
first character of the first home-relative segment whether or not it is
a dot; consequently the distinct home paths `~/.file` and `~/afile` map
to the same repository target, so the map is not injective. -/
theorem C9_theorem (home repo : Path) (s : String) (rest : Path)
    (hh : validPath home) (hr : validPath repo) (hs : validSeg s)
    (hrest : validPath rest) (hs1 : validSeg (s.drop 1)) :
    _name_to_target false home repo (home ++ s :: rest) =
        repo ++ s.drop 1 :: rest ∧
    (_name_to_target false ["home"] ["repo"] ["home", ".file"] =
        _name_to_target false ["home"] ["repo"] ["home", "afile"] ∧
      (["home", ".file"] : Path) ≠ ["home", "afile"]) := by
  constructor
  · rw [_name_to_target]
    simp only [Bool.false_eq_true, if_false]
    rw [bestrel_append _ _ (by simp)]
    simp only [dotStrip]
    rw [pjoin_valid _ _ (by
      rw [validPath_append, hr]
      simp [validPath] at hrest ⊢
      exact ⟨hs1, hrest⟩)]
  · constructor
    · decide
    · decide

/-- **C9 (witness)**: the general first-character-stripping equation
instantiated at the colliding pair. -/
theorem C9_witness :
    _name_to_target false ["home"] ["repo"] (["home"] ++ ".file" :: []) =
        ["repo"] ++ ".file".drop 1 :: [] ∧
    (_name_to_target false ["home"] ["repo"] ["home", ".file"] =
        _name_to_target false ["home"] ["repo"] ["home", "afile"] ∧
      (["home", ".file"] : Path) ≠ ["home", "afile"]) :=
  C9_theorem ["home"] ["repo"] ".file" [] (by decide) (by decide)
    (by decide) (by decide) (by decide)

/-! ## Claim theorems: validation (C2, C3, C10) -/

/-- **C2**: `_dotfile` performs exactly these checks in this order,
short-circuiting on the first failure: (1) containment in `homedir` else
`NotRootedInHome`, (2) non-containment in `repodir` else `InRepository`,
(3) computed target basename not ignored else `TargetIgnored`, (4) not
an (existing) directory else `IsDirectory`; on success it returns
`Dotfile(name, target)` with `target = _name_to_target(name)`. -/
theorem C2_theorem (R : Repository) (fs : FSNode) (name : Path) :
    (¬fnmatchUnder R.homedir name →
      _dotfile R fs name = .error .notRootedInHome) ∧
    (fnmatchUnder R.homedir name → fnmatchUnder R.repodir name →
      _dotfile R fs name = .error .inRepository) ∧
    (fnmatchUnder R.homedir name → ¬fnmatchUnder R.repodir name →
      R.ignore.contains
        (basenameOf (_name_to_target R.dot R.homedir R.repodir name)) →
      _dotfile R fs name = .error .targetIgnored) ∧
    (fnmatchUnder R.homedir name → ¬fnmatchUnder R.repodir name →
      ¬R.ignore.contains
        (basenameOf (_name_to_target R.dot R.homedir R.repodir name)) →
      checkDir fs name →
      _dotfile R fs name = .error .isDirectory) ∧
    (fnmatchUnder R.homedir name → ¬fnmatchUnder R.repodir name →
      ¬R.ignore.contains
        (basenameOf (_name_to_target R.dot R.homedir R.repodir name)) →
      ¬checkDir fs name →
      _dotfile R fs name =
        .ok ⟨name, _name_to_target R.dot R.homedir R.repodir name⟩) := by
  refine ⟨?_, ?_, ?_, ?_, ?_⟩ <;>
    · intros
      simp only [_dotfile]
      simp_all

/-- **C2 (witness)**: a concrete successful validation: home `/home`,
repository `/home/repo`, candidate `/home/x` (present as a file). -/
theorem C2_witness :
    _dotfile ⟨["home", "repo"], ["home"], ["ign"], true⟩
        (.dir [("home", .dir [("x", .file)])]) ["home", "x"] =
      .ok ⟨["home", "x"],
        _name_to_target true ["home"] ["home", "repo"] ["home", "x"]⟩ :=
  ( C2_theorem ⟨["home", "repo"], ["home"], ["ign"], true⟩
    (.dir [("home", .dir [("x", .file)])]) ["home", "x"]).2.2.2.2
    (by decide) (by decide) (by decide) (by decide)

/-- **C3 (counterexample)**: in a pathological configuration where the
repository root `/repo` is not contained in the home root `/home`, the
path `/repo/x` lies inside the repository root yet `validate` fails with
`NotRootedInHome`, not `AlreadyInRepository` — the home check fires
first. -/
theorem C3_counterexample :
    fnmatchUnder ["repo"] ["repo", "x"] = true ∧
    _dotfile ⟨["repo"], ["home"], [], true⟩ (.dir []) ["repo", "x"] =
      .error .notRootedInHome ∧
    _dotfile ⟨["repo"], ["home"], [], true⟩ (.dir []) ["repo", "x"] ≠
      .error .inRepository := by
  refine ⟨by decide, rfl, ?_⟩
  intro h
  injection h with h2
  exact DotfileException.noConfusion h2

/-- **C3 (amended)**: a path inside `repodir` fails with
`AlreadyInRepository` provided it also lies inside `homedir`; when it
lies outside `homedir`, the earlier home-containment check raises
`NotRootedInHome` instead. -/
theorem C3_amended (R : Repository) (fs : FSNode) (name : Path)
    (h1 : fnmatchUnder R.repodir name) (h2 : fnmatchUnder R.homedir name) :
    _dotfile R fs name = .error .inRepository := by
  simp only [_dotfile]
  simp [h1, h2]

/-- **C3 (witness)**: with the repository nested in the home directory,
`/home/repo/x` fails with `AlreadyInRepository`. -/
theorem C3_witness :
    _dotfile ⟨["home", "repo"], ["home"], [], true⟩ (.dir [])
        ["home", "repo", "x"] = .error .inRepository :=
  C3_amended ⟨["home", "repo"], ["home"], [], true⟩ (.dir [])
    ["home", "repo", "x"] (by decide) (by decide)

/-- **C10**: `_dotfile` succeeds on a path that does not exist on the
filesystem: if the path is inside `homedir`, not inside `repodir`, its
computed target basename is not ignored, and lookup finds nothing
(neither file nor directory), a `Dotfile` is returned — only existing
directories are rejected, never missing paths. -/
theorem C10_theorem (R : Repository) (fs : FSNode) (name : Path)
    (h1 : fnmatchUnder R.homedir name)
    (h2 : ¬fnmatchUnder R.repodir name)
    (h3 : ¬R.ignore.contains
      (basenameOf (_name_to_target R.dot R.homedir R.repodir name)))
    (h4 : lookup fs name = none) :
    _dotfile R fs name =
      .ok ⟨name, _name_to_target R.dot R.homedir R.repodir name⟩ := by
  have hcd : checkDir fs name = false := by
    unfold checkDir
    rw [h4]
  simp only [_dotfile]
  simp_all

/-- **C10 (witness)**: `/home/ghost` does not exist in an empty home
tree, yet validation succeeds and returns its `Dotfile`. -/
theorem C10_witness :
    _dotfile ⟨["home", "repo"], ["home"], ["ign"], true⟩
        (.dir [("home", .dir [])]) ["home", "ghost"] =
      .ok ⟨["home", "ghost"],
        _name_to_target true ["home"] ["home", "repo"] ["home", "ghost"]⟩ :=
  C10_theorem ⟨["home", "repo"], ["home"], ["ign"], true⟩
    (.dir [("home", .dir [])]) ["home", "ghost"]
    (by decide) (by decide) (by decide) rfl

/-! ## Claim theorems: batch error handling (C8) -/

theorem constructAll_spec (R : Repository) (fs : FSNode) (l : List Path) :
    constructAll R fs l =
      (l.filterMap fun p => (_dotfile R fs p).toOption,
       l.filterMap fun p =>
         match _dotfile R fs p with
         | .error e => some (p, e)
         | .ok _ => none) := by
  induction l with
  | nil => rfl
  | cons p rest ih =>
    simp only [constructAll, ih, List.filterMap_cons]
    cases h : _dotfile R fs p <;> simp [h, Except.toOption]

theorem constructAll_length (R : Repository) (fs : FSNode) (l : List Path) :
    (constructAll R fs l).1.length + (constructAll R fs l).2.length =
      l.length := by
  induction l with
  | nil => rfl
  | cons p rest ih =>
    simp only [constructAll]
    cases h : _dotfile R fs p <;> simp [h] <;> omega

/-- **C8**: `dotfiles` never fails as a whole because of an individual
validation failure: over the expanded working list, every entry whose
validation raises a `DotfileException` is emitted on the message-output
stream (second component) and omitted from the result, every entry whose
validation succeeds contributes its `Dotfile` in order, and the two
output lists exactly partition the expanded list. -/
theorem C8_theorem (R : Repository) (fs : FSNode) (paths : List Path) :
    dotfiles R fs paths =
      ((expandLoop R.ignore fs [] paths).filterMap
        (fun p => (_dotfile R fs p).toOption),
       (expandLoop R.ignore fs [] paths).filterMap
        (fun p =>
          match _dotfile R fs p with
          | .error e => some (p, e)
          | .ok _ => none)) ∧
    (dotfiles R fs paths).1.length + (dotfiles R fs paths).2.length =
      (expandLoop R.ignore fs [] paths).length := by
  constructor
  · rw [dotfiles, constructAll_spec]
  · rw [dotfiles]
    exact constructAll_length R fs _

/-! ## Well-formed filesystems

Real directory listings have pairwise-distinct entry names; `wfFS`
captures that, and under it path lookup and traversal agree. -/

/-- Every directory of the tree lists pairwise-distinct basenames. -/
def wfFS : FSNode → Bool
  | .file => true
  | .dir cs =>
    decide ((cs.map Prod.fst).Nodup) &&
      cs.attach.all fun ⟨(n, c), h⟩ => wfFS c
termination_by node => sizeOf node
decreasing_by
  have h1 := List.sizeOf_lt_of_mem h
  have h2 : sizeOf (n, c) = 1 + sizeOf n + sizeOf c := by simp
  simp only [FSNode.dir.sizeOf_spec]
  omega

theorem all_attach_eq {α : Type} (l : List α) (f : α → Bool) :
    (l.attach.all fun x => f x.1) = l.all f := by
  apply Bool.eq_iff_iff.mpr
  simp only [List.all_eq_true, List.mem_attach, true_implies, Subtype.forall]

/-- `wfFS` on a directory with the `attach` scaffolding removed. -/
theorem wfFS_dir (cs : List (String × FSNode)) :
    wfFS (.dir cs) =
      (decide ((cs.map Prod.fst).Nodup) && cs.all fun nc => wfFS nc.2) := by
  rw [wfFS]
  congr 1
  exact all_attach_eq cs fun nc => wfFS nc.2

theorem findChild_eq_of_nodup {cs : List (String × FSNode)} {n : String}
    {c : FSNode} (hm : (n, c) ∈ cs) (hnd : (cs.map Prod.fst).Nodup) :
    findChild cs n = some c := by
  induction cs with
  | nil => simp at hm
  | cons hd rest ih =>
    obtain ⟨m, d⟩ := hd
    simp only [List.map_cons, List.nodup_cons] at hnd
    rcases List.mem_cons.mp hm with h | h
    · injection h with hn hc
      subst hn hc
      simp [findChild]
    · have hmn : m ≠ n := by
        intro he
        subst he
        exact hnd.1 (List.mem_map.mpr ⟨(m, c), h, rfl⟩)
      simp only [findChild, hmn, if_false]
      exact ih h hnd.2

theorem lookup_wf {fs : FSNode} {p : Path} {node : FSNode}
    (hwf : wfFS fs = true) (h : lookup fs p = some node) : wfFS node = true := by
  induction p generalizing fs with
  | nil =>
    simp only [lookup, Option.some.injEq] at h
    subst h
    exact hwf
  | cons s rest ih =>
    cases fs with
    | file => simp [lookup] at h
    | dir cs =>
      simp only [lookup] at h
      cases hfc : findChild cs s with
      | none => rw [hfc] at h; simp at h
      | some c =>
        rw [hfc] at h
        have hm : (s, c) ∈ cs := findChild_mem hfc
        have hwc : wfFS c = true := by
          rw [wfFS_dir, Bool.and_eq_true, List.all_eq_true] at hwf
          exact hwf.2 (s, c) hm
        exact ih hwc h

/-- Under a well-formed filesystem, `_contents` yields exactly the files
below `base` all of whose relative path segments (ancestor directory
basenames and the file's own basename) are outside the ignore list. -/
theorem _contents_mem_iff (ignore : List String) :
    ∀ node, wfFS node = true → ∀ base q,
      (q ∈ _contents ignore base node ↔
        ∃ rel, rel ≠ [] ∧ q = base ++ rel ∧ lookup node rel = some .file ∧
          ∀ s ∈ rel, ignore.contains s = false) := by
  intro node
  induction node using FSNode.indOn with
  | hfile =>
    intro _ base q
    rw [_contents_file]
    simp only [List.not_mem_nil, false_iff]
    rintro ⟨rel, hne, rfl, hlk, _⟩
    cases rel with
    | nil => exact hne rfl
    | cons s r => simp [lookup] at hlk
  | hdir cs ih =>
    intro hwf base q
    rw [wfFS_dir, Bool.and_eq_true, decide_eq_true_eq, List.all_eq_true] at hwf
    obtain ⟨hnd, hall⟩ := hwf
    rw [_contents_dir]
    constructor
    · intro hq
      rcases List.mem_append.mp hq with hq | hq
      · obtain ⟨nc, hnc, hin⟩ := List.mem_flatMap.mp hq
        obtain ⟨n, c⟩ := nc
        by_cases hcond : (isDirNode c && !(ignore.contains n)) = true
        · rw [if_pos hcond] at hin
          rw [Bool.and_eq_true, Bool.not_eq_eq_eq_not, Bool.not_true] at hcond
          obtain ⟨rel', hne', heq', hlk', hign'⟩ :=
            (ih n c hnc (hall (n, c) hnc) (base ++ [n]) q).mp hin
          refine ⟨n :: rel', by simp, by simp [heq'], ?_, ?_⟩
          · simp only [lookup, findChild_eq_of_nodup hnc hnd]
            exact hlk'
          · intro s hs
            rcases List.mem_cons.mp hs with rfl | hs
            · exact hcond.2
            · exact hign' s hs
        · rw [if_neg hcond] at hin
          simp at hin
      · obtain ⟨nc, hnc, hin⟩ := List.mem_filterMap.mp hq
        obtain ⟨n, c⟩ := nc
        by_cases hcond : (!(isDirNode c) && !(ignore.contains n)) = true
        · rw [if_pos hcond] at hin
          rw [Bool.and_eq_true, Bool.not_eq_eq_eq_not, Bool.not_eq_eq_eq_not,
            Bool.not_true] at hcond
          have hfile : c = .file := by
            cases c with
            | file => rfl
            | dir gs => simp [isDirNode] at hcond
          obtain rfl : base ++ [n] = q := by
            injection hin
          refine ⟨[n], by simp, rfl, ?_, ?_⟩
          · simp only [lookup, findChild_eq_of_nodup hnc hnd, hfile]
          · intro s hs
            rcases List.mem_cons.mp hs with rfl | hs
            · exact hcond.2
            · simp at hs
        · rw [if_neg hcond] at hin
          simp at hin
    · rintro ⟨rel, hne, rfl, hlk, hign⟩
      cases rel with
      | nil => exact absurd rfl hne
      | cons s rel' =>
        simp only [lookup] at hlk
        cases hfc : findChild cs s with
        | none => rw [hfc] at hlk; simp at hlk
        | some c =>
          rw [hfc] at hlk
          have hm : (s, c) ∈ cs := findChild_mem hfc
          have higs : ignore.contains s = false := hign s (by simp)
          cases rel' with
          | nil =>
            simp only [lookup, Option.some.injEq] at hlk
            apply List.mem_append.mpr
            right
            apply List.mem_filterMap.mpr
            refine ⟨(s, c), hm, ?_⟩
            have hsm : s ∉ ignore := by simpa using higs
            rw [if_pos (by simp [hlk, isDirNode, hsm])]
          | cons t rel'' =>
            have hcd : isDirNode c = true := by
              cases c with
              | file => simp [lookup] at hlk
              | dir gs => rfl
            apply List.mem_append.mpr
            left
            apply List.mem_flatMap.mpr
            refine ⟨(s, c), hm, ?_⟩
            have hsm : s ∉ ignore := by simpa using higs
            rw [if_pos (by simp [hcd, hsm])]
            apply (ih s c hm (hall (s, c) hm) (base ++ [s]) _).mpr
            exact ⟨t :: rel'', by simp, by simp, hlk, fun u hu => hign u (by simp [hu])⟩

/-- Entries produced by `_contents` of an existing directory are files of
the (well-formed) filesystem, never directories. -/
theorem _contents_at_no_dir (ignore : List String) {fs : FSNode} {p q : Path}
    (hwf : wfFS fs = true) (hq : q ∈ _contents_at ignore fs p) :
    checkDir fs q = false := by
  unfold _contents_at at hq
  cases hl : lookup fs p with
  | none => rw [hl] at hq; simp at hq
  | some node =>
    rw [hl] at hq
    have hwn := lookup_wf hwf hl
    obtain ⟨rel, hne, rfl, hfile, _⟩ := (_contents_mem_iff ignore node hwn p q).mp hq
    have hlk : lookup fs (p ++ rel) = some .file := by
      rw [lookup_append, hl]
      exact hfile
    unfold checkDir
    rw [hlk]
    rfl

/-! ## Unfolding equations for the expansion loop -/

theorem expandLoop_nil (ignore : List String) (fs : FSNode) (done : List Path) :
    expandLoop ignore fs done [] = done := by
  rw [expandLoop]

theorem expandLoop_cons_file (ignore : List String) (fs : FSNode)
    (done rest : List Path) (p : Path) (h : checkDir fs p = false) :
    expandLoop ignore fs done (p :: rest) =
      expandLoop ignore fs (done ++ [p]) rest := by
  rw [expandLoop]
  simp [h]

theorem erase_take_not_mem (done rest app : List Path) (p : Path)
    (hp : p ∉ done) :
    ((done ++ p :: (rest ++ app)).erase p).take (done.length + 1) =
      done ++ (rest ++ app).take 1 := by
  rw [List.erase_append_right _ hp, List.erase_cons_head, List.take_append 1]

theorem expandLoop_cons_dir (ignore : List String) (fs : FSNode)
    (done rest : List Path) (p : Path) (h : checkDir fs p = true)
    (hp : p ∉ done) :
    expandLoop ignore fs done (p :: rest) =
      expandLoop ignore fs
        (done ++ (rest ++ _contents_at ignore fs p).take 1)
        ((rest ++ _contents_at ignore fs p).drop 1) := by
  rw [expandLoop]
  simp only [h, if_true]
  rw [erase_take_not_mem _ _ _ _ hp, erase_take_drop]

theorem pairwise_of_all_right {α : Type} {R : α → α → Prop} {l : List α}
    (h : ∀ b ∈ l, ∀ a, R a b) : List.Pairwise R l := by
  induction l with
  | nil => exact List.Pairwise.nil
  | cons x xs ih =>
    exact List.Pairwise.cons
      (fun b hb => h b (List.mem_cons_of_mem x hb) x)
      (ih fun b hb a => h b (List.mem_cons_of_mem x hb) a)

/-- Loop invariant for `expandLoop` over a well-formed filesystem, given
that no directory immediately follows another directory in the pending
list and the already-visited prefix holds no directories: the final list
holds no directories, keeps every non-directory element, and includes
the recursive contents of every pending directory. -/
theorem expandLoop_spec (ignore : List String) (fs : FSNode)
    (hwf : wfFS fs = true) :
    ∀ done todo,
      (∀ x ∈ done, checkDir fs x = false) →
      List.Chain' (fun a b => ¬(checkDir fs a = true ∧ checkDir fs b = true))
        todo →
      ((∀ q ∈ expandLoop ignore fs done todo, checkDir fs q = false) ∧
       (∀ x, checkDir fs x = false → x ∈ done ++ todo →
         x ∈ expandLoop ignore fs done todo) ∧
       (∀ p ∈ todo, checkDir fs p = true →
         ∀ q ∈ _contents_at ignore fs p, q ∈ expandLoop ignore fs done todo)) := by
  intro done todo
  induction done, todo using expandLoop.induct ignore fs with
  | case1 done =>
    intro hdone _
    rw [expandLoop_nil]
    refine ⟨hdone, ?_, ?_⟩
    · intro x _ hmem
      simpa using hmem
    · intro p hp
      simp at hp
  | case2 done p rest hdir full ih =>
    intro hdone hchain
    have hpd : p ∉ done := by
      intro hmem
      rw [hdone p hmem] at hdir
      cases hdir
    have happf : ∀ q ∈ _contents_at ignore fs p, checkDir fs q = false :=
      fun q hq => _contents_at_no_dir ignore hwf hq
    have heq := expandLoop_cons_dir ignore fs done rest p hdir hpd
    have hIH := ih
    unfold_let full at hIH
    rw [erase_take_not_mem _ _ _ _ hpd, erase_take_drop] at hIH
    -- invariant: the new done prefix holds no directories
    have hdone' : ∀ x ∈ done ++ (rest ++ _contents_at ignore fs p).take 1,
        checkDir fs x = false := by
      intro x hx
      rcases List.mem_append.mp hx with hx | hx
      · exact hdone x hx
      · cases hrest : rest with
        | cons r rs =>
          rw [hrest] at hx
          simp only [List.cons_append, List.take_succ_cons, List.take_zero] at hx
          have hx2 : x = r := by simpa using hx
          subst hx2
          have hcp := (List.chain'_cons.mp (hrest ▸ hchain)).1
          by_cases hb : checkDir fs x = true
          · exact absurd ⟨hdir, hb⟩ hcp
          · simpa using hb
        | nil =>
          rw [hrest] at hx
          simp only [List.nil_append] at hx
          cases happc : _contents_at ignore fs p with
          | nil => rw [happc] at hx; simp at hx
          | cons a as_ =>
            rw [happc] at hx
            have hx2 : x = a := by simpa using hx
            subst hx2
            exact happf x (by rw [happc]; simp)
    -- invariant: the new pending suffix still has no adjacent directories
    have happchain :
        List.Chain' (fun a b => ¬(checkDir fs a = true ∧ checkDir fs b = true))
          (rest ++ _contents_at ignore fs p) := by
      rw [List.chain'_append]
      refine ⟨(List.Chain'.tail hchain : _), ?_, ?_⟩
      · exact List.Pairwise.chain'
          (pairwise_of_all_right fun b hb a => fun hc => by
            rw [happf b hb] at hc
            exact absurd hc.2 (by simp))
      · intro x _ y hy
        intro hc
        have := happf y (List.mem_of_mem_head? hy)
        rw [this] at hc
        exact absurd hc.2 (by simp)
    have hchain' :
        List.Chain' (fun a b => ¬(checkDir fs a = true ∧ checkDir fs b = true))
          ((rest ++ _contents_at ignore fs p).drop 1) := by
      rw [List.drop_one]
      exact List.Chain'.tail happchain
    obtain ⟨hA, hB, hC⟩ := hIH hdone' hchain'
    rw [heq]
    refine ⟨hA, ?_, ?_⟩
    · intro x hx hmem
      apply hB x hx
      have hxp : x ≠ p := by
        intro hxeq
        rw [hxeq, hdir] at hx
        cases hx
      have hdr : x ∈ done ∨ x ∈ rest := by
        rcases List.mem_append.mp hmem with hm | hm
        · exact Or.inl hm
        · rcases List.mem_cons.mp hm with hm | hm
          · exact absurd hm hxp
          · exact Or.inr hm
      rcases hdr with hm | hm
      · exact List.mem_append.mpr (Or.inl (List.mem_append.mpr (Or.inl hm)))
      · have hra : x ∈ rest ++ _contents_at ignore fs p :=
          List.mem_append.mpr (Or.inl hm)
        rw [← List.take_append_drop 1 (rest ++ _contents_at ignore fs p)] at hra
        rcases List.mem_append.mp hra with hm2 | hm2
        · exact List.mem_append.mpr (Or.inl (List.mem_append.mpr (Or.inr hm2)))
        · exact List.mem_append.mpr (Or.inr hm2)
    · intro p' hp' hdir' q hq
      rcases List.mem_cons.mp hp' with rfl | hp'
      · -- the expanded directory itself: its contents are in the state
        apply hB q (happf q hq)
        have hra : q ∈ rest ++ _contents_at ignore fs p' :=
          List.mem_append.mpr (Or.inr hq)
        rw [← List.take_append_drop 1 (rest ++ _contents_at ignore fs p')] at hra
        rcases List.mem_append.mp hra with hm2 | hm2
        · exact List.mem_append.mpr (Or.inl (List.mem_append.mpr (Or.inr hm2)))
        · exact List.mem_append.mpr (Or.inr hm2)
      · -- a later directory: it stays pending
        apply hC p' ?_ hdir' q hq
        cases rest with
        | nil => simp at hp'
        | cons r rs =>
          have hpr : p' ≠ r := by
            intro hpeq
            have hcp := (List.chain'_cons.mp hchain).1
            rw [hpeq] at hdir'
            exact absurd ⟨hdir, hdir'⟩ hcp
          have hprs : p' ∈ rs := by
            rcases List.mem_cons.mp hp' with hm | hm
            · exact absurd hm hpr
            · exact hm
          simp only [List.cons_append, List.drop_succ_cons, List.drop_zero]
          exact List.mem_append.mpr (Or.inl hprs)
  | case3 done p rest hfile ih =>
    intro hdone hchain
    have hf : checkDir fs p = false := by
      rw [← Bool.not_eq_true]
      exact hfile
    have heq := expandLoop_cons_file ignore fs done rest p hf
    have hdone' : ∀ x ∈ done ++ [p], checkDir fs x = false := by
      intro x hx
      rcases List.mem_append.mp hx with hx | hx
      · exact hdone x hx
      · have hx2 : x = p := by simpa using hx
        rw [hx2]
        exact hf
    obtain ⟨hA, hB, hC⟩ := ih hdone' (List.Chain'.tail hchain)
    rw [heq]
    refine ⟨hA, ?_, ?_⟩
    · intro x hx hmem
      apply hB x hx
      rcases List.mem_append.mp hmem with hm | hm
      · exact List.mem_append.mpr (Or.inl (List.mem_append.mpr (Or.inl hm)))
      · rcases List.mem_cons.mp hm with rfl | hm
        · exact List.mem_append.mpr (Or.inl (List.mem_append.mpr (Or.inr (by simp))))
        · exact List.mem_append.mpr (Or.inr hm)
    · intro p' hp' hdir' q hq
      have : p' ∈ rest := by
        rcases List.mem_cons.mp hp' with rfl | hm
        · rw [hf] at hdir'
          cases hdir'
        · exact hm
      exact hC p' this hdir' q hq

theorem wfFS_file : wfFS .file = true := by rw [wfFS]

/-! ## Claim theorems: directory expansion (C4, C5) -/

/-- Fixture for C4: a home directory holding directories `d1` (file
`f1`), `d2` (file `f2`) and a plain file `f`, plus an empty repository. -/
def fs4 : FSNode :=
  .dir [("home", .dir [("d1", .dir [("f1", .file)]),
                       ("d2", .dir [("f2", .file)]),
                       ("f", .file)]),
        ("repo", .dir [])]

/-- **C4 (counterexample)**: on the working list `[~/d1, ~/d2]` (two
directories adjacent), expanding and removing `~/d1` shifts `~/d2` past
the iterator: the final list still contains the directory `~/d2`
unexpanded, and `~/d2/f2` is missing — so not every directory entry is
replaced by its recursive contents. -/
theorem C4_counterexample :
    expandLoop [] fs4 [] [["home", "d1"], ["home", "d2"]] =
      [["home", "d2"], ["home", "d1", "f1"]] ∧
    checkDir fs4 ["home", "d2"] = true ∧
    (["home", "d2", "f2"] : Path) ∉
      expandLoop [] fs4 [] [["home", "d1"], ["home", "d2"]] := by
  have h : expandLoop [] fs4 [] [["home", "d1"], ["home", "d2"]] =
      [["home", "d2"], ["home", "d1", "f1"]] := by
    simp [expandLoop, checkDir, lookup, findChild, fs4, _contents_at,
      _contents_dir, _contents_file, isDirNode, List.erase]
  refine ⟨h, by decide, ?_⟩
  rw [h]
  decide

/-- **C4 (amended)**: over a well-formed filesystem, whenever no
directory immediately follows another directory in the (deduplicated)
working list, every directory entry is replaced in the working list by
the recursive set of non-ignored files beneath it (ignored basenames
prune whole subtrees, per `_contents`): the expanded list contains no
directory, every directory's recursive contents, and every non-directory
input; a directory immediately following an expanded directory is
skipped by the iterator and survives unexpanded (see the
counterexample). -/
theorem C4_amended (ignore : List String) (fs : FSNode) (paths : List Path)
    (hwf : wfFS fs = true)
    (hadj : List.Chain'
      (fun a b => ¬(checkDir fs a = true ∧ checkDir fs b = true)) paths) :
    (∀ q ∈ expandLoop ignore fs [] paths, checkDir fs q = false) ∧
    (∀ p ∈ paths, checkDir fs p = true →
      (p ∉ expandLoop ignore fs [] paths ∧
       ∀ q ∈ _contents_at ignore fs p, q ∈ expandLoop ignore fs [] paths)) ∧
    (∀ p ∈ paths, checkDir fs p = false →
      p ∈ expandLoop ignore fs [] paths) := by
  obtain ⟨hA, hB, hC⟩ := expandLoop_spec ignore fs hwf [] paths (by simp) hadj
  refine ⟨hA, ?_, ?_⟩
  · intro p hp hdir
    refine ⟨?_, fun q hq => hC p hp hdir q hq⟩
    intro hmem
    rw [hA p hmem] at hdir
    cases hdir
  · intro p hp hfp
    exact hB p hfp (by simp [hp])

/-- **C4 (witness)**: on the working list `[~/d1, ~/f, ~/d2]` (no two
directories adjacent) both directories are expanded. -/
theorem C4_witness :
    (∀ q ∈ expandLoop [] fs4 []
        [["home", "d1"], ["home", "f"], ["home", "d2"]],
      checkDir fs4 q = false) ∧
    (∀ p ∈ [["home", "d1"], ["home", "f"], ["home", "d2"]],
      checkDir fs4 p = true →
      (p ∉ expandLoop [] fs4 []
          [["home", "d1"], ["home", "f"], ["home", "d2"]] ∧
       ∀ q ∈ _contents_at [] fs4 p,
         q ∈ expandLoop [] fs4 []
           [["home", "d1"], ["home", "f"], ["home", "d2"]])) ∧
    (∀ p ∈ [["home", "d1"], ["home", "f"], ["home", "d2"]],
      checkDir fs4 p = false →
      p ∈ expandLoop [] fs4 []
        [["home", "d1"], ["home", "f"], ["home", "d2"]]) :=
  C4_amended [] fs4 [["home", "d1"], ["home", "f"], ["home", "d2"]]
    (by simp [fs4, wfFS_dir, wfFS_file])
    (by
      refine List.chain'_cons.mpr ⟨?_, List.chain'_cons.mpr ⟨?_, ?_⟩⟩
      · rintro ⟨_, hb⟩
        revert hb
        decide
      · rintro ⟨ha, _⟩
        revert ha
        decide
      · exact List.chain'_singleton _)

/-- Fixture for C5: the claim's example home directory `~/d` holding
file `a`, ignored file `b` and subdirectory `c` with file `dd`. -/
def fs5 : FSNode :=
  .dir [("home", .dir [("d", .dir [("a", .file), ("b", .file),
                                   ("c", .dir [("dd", .file)])])]),
        ("repo", .dir [])]

/-- Fixture for C5: repository `/repo`, home `/home`, ignore `b`. -/
def R5 : Repository := ⟨["repo"], ["home"], ["b"], true⟩

/-- **C5 (counterexample)**: when `~/d` and `~/d/a` are both passed
explicitly (distinct canonical paths, so the initial `set()` keeps
both), expansion appends `~/d`'s contents — including `~/d/a` — to the
working list, and the result contains the `Dotfile` for `~/d/a` twice:
duplicates are not removed. -/
theorem C5_counterexample :
    (dotfiles R5 fs5 [["home", "d"], ["home", "d", "a"]]).1 =
      [⟨["home", "d", "a"], ["repo", "d", "a"]⟩,
       ⟨["home", "d", "c", "dd"], ["repo", "d", "c", "dd"]⟩,
       ⟨["home", "d", "a"], ["repo", "d", "a"]⟩] ∧
    ¬(dotfiles R5 fs5 [["home", "d"], ["home", "d", "a"]]).1.Nodup := by
  have hexp : expandLoop ["b"] fs5 [] [["home", "d"], ["home", "d", "a"]] =
      [["home", "d", "a"], ["home", "d", "c", "dd"], ["home", "d", "a"]] := by
    simp [expandLoop, checkDir, lookup, findChild, fs5, _contents_at,
      _contents_dir, _contents_file, isDirNode, List.erase]
  have hign : R5.ignore = ["b"] := rfl
  rw [dotfiles, hign, hexp]
  refine ⟨by decide, by decide⟩

/-- **C5 (amended)**: `dotfiles` returns the successfully validated
`Dotfile`s in working-list order (the deduplicated inputs, with each
expanded directory's contents appended at the end, subdirectory files
before the directory's own files); the initial `set()` deduplicates only
the caller's paths, so a file passed explicitly and also discovered
under a passed directory yields two entries.  For the claim's example:
`dotfiles([~/d])` yields entries for `~/d/c/dd` and `~/d/a`, excludes
the ignored `b`, with no duplicates; passing `~/d` and `~/d/a` together
yields `~/d/a` twice. -/
theorem C5_amended :
    (dotfiles R5 fs5 [["home", "d"]]).1 =
      [⟨["home", "d", "c", "dd"], ["repo", "d", "c", "dd"]⟩,
       ⟨["home", "d", "a"], ["repo", "d", "a"]⟩] ∧
    (dotfiles R5 fs5 [["home", "d"]]).1.Nodup ∧
    (dotfiles R5 fs5 [["home", "d"], ["home", "d", "a"]]).1 =
      [⟨["home", "d", "a"], ["repo", "d", "a"]⟩,
       ⟨["home", "d", "c", "dd"], ["repo", "d", "c", "dd"]⟩,
       ⟨["home", "d", "a"], ["repo", "d", "a"]⟩] := by
  have hexp1 : expandLoop ["b"] fs5 [] [["home", "d"]] =
      [["home", "d", "c", "dd"], ["home", "d", "a"]] := by
    simp [expandLoop, checkDir, lookup, findChild, fs5, _contents_at,
      _contents_dir, _contents_file, isDirNode, List.erase]
  have hexp2 : expandLoop ["b"] fs5 [] [["home", "d"], ["home", "d", "a"]] =
      [["home", "d", "a"], ["home", "d", "c", "dd"], ["home", "d", "a"]] := by
    simp [expandLoop, checkDir, lookup, findChild, fs5, _contents_at,
      _contents_dir, _contents_file, isDirNode, List.erase]
  have hign : R5.ignore = ["b"] := rfl
  refine ⟨?_, ?_, ?_⟩
  · rw [dotfiles, hign, hexp1]; decide
  · rw [dotfiles, hign, hexp1]; decide
  · rw [dotfiles, hign, hexp2]; decide

/-! ## Claim theorems: prune (C6) -/

/-- No empty unignored directory anywhere strictly below this node
(also inside ignored subtrees) — the predicate of the claim. -/
def noEmptyBelow (ignore : List String) : FSNode → Bool
  | .file => true
  | .dir cs =>
    cs.attach.all fun ⟨(n, c), h⟩ =>
      (!(isEmptyDir c) || ignore.contains n) && noEmptyBelow ignore c
termination_by node => sizeOf node
decreasing_by
  have h1 := List.sizeOf_lt_of_mem h
  have h2 : sizeOf (n, c) = 1 + sizeOf n + sizeOf c := by simp
  simp only [FSNode.dir.sizeOf_spec]
  omega

/-- No empty unignored directory reachable through unignored directories
below this node: the subtree under an ignored directory is not
inspected, mirroring prune's `rec` predicate. -/
def noEmptyReachable (ignore : List String) : FSNode → Bool
  | .file => true
  | .dir cs =>
    cs.attach.all fun ⟨(n, c), h⟩ =>
      (!(isEmptyDir c) || ignore.contains n) &&
      (ignore.contains n || noEmptyReachable ignore c)
termination_by node => sizeOf node
decreasing_by
  have h1 := List.sizeOf_lt_of_mem h
  have h2 : sizeOf (n, c) = 1 + sizeOf n + sizeOf c := by simp
  simp only [FSNode.dir.sizeOf_spec]
  omega

theorem noEmptyBelow_file (ignore : List String) :
    noEmptyBelow ignore .file = true := by rw [noEmptyBelow]

theorem noEmptyBelow_dir (ignore : List String)
    (cs : List (String × FSNode)) :
    noEmptyBelow ignore (.dir cs) =
      cs.all fun nc =>
        (!(isEmptyDir nc.2) || ignore.contains nc.1) &&
          noEmptyBelow ignore nc.2 := by
  rw [noEmptyBelow]
  exact all_attach_eq cs fun nc =>
    (!(isEmptyDir nc.2) || ignore.contains nc.1) && noEmptyBelow ignore nc.2

theorem noEmptyReachable_file (ignore : List String) :
    noEmptyReachable ignore .file = true := by rw [noEmptyReachable]

theorem noEmptyReachable_dir (ignore : List String)
    (cs : List (String × FSNode)) :
    noEmptyReachable ignore (.dir cs) =
      cs.all fun nc =>
        (!(isEmptyDir nc.2) || ignore.contains nc.1) &&
          (ignore.contains nc.1 || noEmptyReachable ignore nc.2) := by
  rw [noEmptyReachable]
  exact all_attach_eq cs fun nc =>
    (!(isEmptyDir nc.2) || ignore.contains nc.1) &&
      (ignore.contains nc.1 || noEmptyReachable ignore nc.2)

theorem pruneNode_file (ignore : List String) :
    pruneNode ignore .file = .file := by rw [pruneNode]

/-- **C6 (counterexample)**: on the repository tree `repo/ign/empty`
with `ign` ignored, `prune` does not recurse into `ign`, so the empty
unignored directory `empty` survives: after pruning, an empty unignored
directory remains below the root. -/
theorem C6_counterexample :
    pruneNode ["ign"] (.dir [("ign", .dir [("empty", .dir [])])]) =
      .dir [("ign", .dir [("empty", .dir [])])] ∧
    noEmptyBelow ["ign"]
      (pruneNode ["ign"] (.dir [("ign", .dir [("empty", .dir [])])])) =
      false := by
  have h : pruneNode ["ign"] (.dir [("ign", .dir [("empty", .dir [])])]) =
      .dir [("ign", .dir [("empty", .dir [])])] := by
    simp [pruneNode_dir, isDirNode, isEmptyDir]
  refine ⟨h, ?_⟩
  rw [h]
  simp [noEmptyBelow_dir, isEmptyDir]

/-- **C6 (amended)**: a single `prune()` pass (post-order: children
before parents) leaves no empty unignored directory that is reachable
through unignored directories; the root directory itself is never
removed even when it ends up empty; an ignored empty directory child is
never removed; and on `repo/empty1/empty2` (both empty, neither
ignored) one pass removes both directories.  Empty unignored
directories hidden inside ignored subtrees are not visited and may
survive (see the counterexample). -/
theorem C6_amended :
    (∀ (ignore : List String) (t : FSNode),
      noEmptyReachable ignore (pruneNode ignore t) = true) ∧
    (∀ (ignore : List String) (cs : List (String × FSNode)),
      ∃ cs2, pruneNode ignore (.dir cs) = .dir cs2) ∧
    (∀ (ignore : List String) (n : String) (cs : List (String × FSNode)),
      ignore.contains n = true → (n, .dir []) ∈ cs →
      ∃ cs2, pruneNode ignore (.dir cs) = .dir cs2 ∧ (n, .dir []) ∈ cs2) ∧
    pruneNode [] (.dir [("empty1", .dir [("empty2", .dir [])])]) = .dir [] := by
  refine ⟨?_, ?_, ?_, ?_⟩
  · intro ignore t
    induction t using FSNode.indOn with
    | hfile => rw [pruneNode_file, noEmptyReachable_file]
    | hdir cs ih =>
      rw [pruneNode_dir, noEmptyReachable_dir, List.all_eq_true]
      intro nc hnc
      rw [List.mem_filter] at hnc
      obtain ⟨hmap, hkeep⟩ := hnc
      have hkeep2 : (!(isEmptyDir nc.2) || ignore.contains nc.1) = true := by
        rwa [Bool.not_and, Bool.not_not] at hkeep
      obtain ⟨nc0, hnc0, heq⟩ := List.mem_map.mp hmap
      obtain ⟨n0, c0⟩ := nc0
      rw [Bool.and_eq_true]
      refine ⟨hkeep2, ?_⟩
      rw [Bool.or_eq_true]
      by_cases hcond : (isDirNode c0 && !(ignore.contains n0)) = true
      · rw [if_pos hcond] at heq
        subst heq
        by_cases hig : ignore.contains n0 = true
        · exact Or.inl hig
        · exact Or.inr (ih n0 c0 hnc0)
      · rw [if_neg hcond] at heq
        subst heq
        by_cases hig : ignore.contains n0 = true
        · exact Or.inl hig
        · right
          rw [Bool.not_eq_true] at hig
          have hd : isDirNode c0 = false := by
            cases hdc : isDirNode c0
            · rfl
            · exact absurd (by rw [hdc, hig]; rfl) hcond
          cases c0 with
          | file => exact noEmptyReachable_file ignore
          | dir gs => simp [isDirNode] at hd
  · intro ignore cs
    exact ⟨_, pruneNode_dir ignore cs⟩
  · intro ignore n cs hig hm
    have hmem : n ∈ ignore := by simpa using hig
    refine ⟨_, pruneNode_dir ignore cs, ?_⟩
    apply List.mem_filter.mpr
    constructor
    · apply List.mem_map.mpr
      refine ⟨(n, .dir []), hm, ?_⟩
      rw [if_neg (by simp [hmem])]
    · simp [isEmptyDir, hmem]
  · simp [pruneNode_dir, isDirNode, isEmptyDir]

/-- **C6 (witness)**: the amended statement instantiated: pruning the
`repo/empty1/empty2` tree yields a tree with no reachable empty
unignored directory, and an ignored empty directory child survives a
prune of its parent listing. -/
theorem C6_witness :
    noEmptyReachable []
      (pruneNode [] (.dir [("empty1", .dir [("empty2", .dir [])])])) = true ∧
    ∃ cs2, pruneNode ["ign"] (.dir [("ign", .dir [])]) = .dir cs2 ∧
      ("ign", FSNode.dir []) ∈ cs2 :=
  ⟨C6_amended.1 [] (.dir [("empty1", .dir [("empty2", .dir [])])]),
   C6_amended.2.2.1 ["ign"] "ign" [("ign", .dir [])] (by decide) (by simp)⟩

/-! ## Claim theorems: contents enumeration (C7) -/

theorem strLeB_total : ∀ a b : List Char,
    strLeB a b = true ∨ strLeB b a = true := by
  intro a
  induction a with
  | nil => intro b; left; rw [strLeB]
  | cons c cs ih =>
    intro b
    cases b with
    | nil => right; rw [strLeB]
    | cons d ds =>
      by_cases h1 : c.toNat < d.toNat
      · left; simp [strLeB, h1]
      · by_cases h2 : d.toNat < c.toNat
        · right; simp [strLeB, h2]
        · rcases ih ds with h | h
          · left; simp [strLeB, h1, h2, h]
          · right; simp [strLeB, h1, h2, h]

theorem nameLe_total (a b : Dotfile) :
    nameLe a b = true ∨ nameLe b a = true := strLeB_total _ _

theorem insortOne_perm (x : Dotfile) (l : List Dotfile) :
    (insortOne x l).Perm (x :: l) := by
  induction l with
  | nil => exact List.Perm.refl _
  | cons y ys ih =>
    rw [insortOne]
    by_cases h : nameLe x y = true
    · rw [if_pos h]
    · rw [if_neg h]
      exact List.Perm.trans (List.Perm.cons y ih) (List.Perm.swap x y ys)

theorem sortedByName_perm (l : List Dotfile) :
    (sortedByName l).Perm l := by
  induction l with
  | nil => exact List.Perm.refl _
  | cons x xs ih =>
    have h : sortedByName (x :: xs) = insortOne x (sortedByName xs) := rfl
    rw [h]
    exact List.Perm.trans (insortOne_perm x _) (List.Perm.cons x ih)

theorem mem_sortedByName {d : Dotfile} {l : List Dotfile} :
    d ∈ sortedByName l ↔ d ∈ l := (sortedByName_perm l).mem_iff

theorem insortOne_head (x : Dotfile) (l : List Dotfile) :
    (insortOne x l).head? = some x ∨ (insortOne x l).head? = l.head? := by
  cases l with
  | nil => left; rfl
  | cons y ys =>
    rw [insortOne]
    by_cases h : nameLe x y = true
    · rw [if_pos h]; left; rfl
    · rw [if_neg h]; right; rfl

theorem insortOne_chain (x : Dotfile) (l : List Dotfile)
    (hl : List.Chain' (fun a b => nameLe a b = true) l) :
    List.Chain' (fun a b => nameLe a b = true) (insortOne x l) := by
  induction l with
  | nil => exact List.chain'_singleton x
  | cons y ys ih =>
    rw [insortOne]
    by_cases h : nameLe x y = true
    · rw [if_pos h]
      exact List.chain'_cons.mpr ⟨h, hl⟩
    · rw [if_neg h]
      have hyx : nameLe y x = true := by
        rcases nameLe_total x y with h2 | h2
        · exact absurd h2 h
        · exact h2
      have htail : List.Chain' (fun a b => nameLe a b = true) ys :=
        (List.Chain'.tail hl : _)
      refine List.chain'_cons'.mpr ⟨?_, ih htail⟩
      intro z hz
      rcases insortOne_head x ys with hh | hh
      · rw [hh] at hz
        injection hz with hzx
        subst hzx
        exact hyx
      · rw [hh] at hz
        exact (List.chain'_cons'.mp hl).1 z hz

theorem sortedByName_chain (l : List Dotfile) :
    List.Chain' (fun a b => nameLe a b = true) (sortedByName l) := by
  induction l with
  | nil => exact List.chain'_nil
  | cons x xs ih => exact insortOne_chain x (sortedByName xs) ih

/-- `contents` with the lookup of the repository root resolved. -/
theorem contents_eval (R : Repository) (fs node : FSNode)
    (hlk : lookup fs R.repodir = some node) :
    contents R fs =
      sortedByName ((_contents R.ignore R.repodir node).map
        fun target =>
          Dotfile.mk (_target_to_name R.dot R.homedir R.repodir target)
            target) := by
  simp only [contents, hlk]

/-- Fixture for C7: a repository holding exactly the files `z`, `a`,
`m` (listed in that order) and an empty home directory. -/
def fs7 : FSNode :=
  .dir [("home", .dir []),
        ("repo", .dir [("z", .file), ("a", .file), ("m", .file)])]

/-- Fixture for C7: repository `/repo`, home `/home`, nothing ignored. -/
def R7 : Repository := ⟨["repo"], ["home"], [], true⟩

/-- **C7**: `contents()` collects every file below `repodir` whose own
basename and every ancestor directory basename (the segments of its
repository-relative path) are outside the ignore set, wraps each as
`Dotfile(repoToHome(entry), entry)`, and returns the list sorted by
`name` in lexical path-string order; on a repository holding exactly
the files `z`, `a`, `m` it returns them ordered `a`, `m`, `z`. -/
theorem C7_theorem :
    (∀ (R : Repository) (fs node : FSNode), wfFS fs = true →
      lookup fs R.repodir = some node →
      ∀ d, (d ∈ contents R fs ↔
        ∃ rel, rel ≠ [] ∧ lookup node rel = some .file ∧
          (∀ s ∈ rel, R.ignore.contains s = false) ∧
          d = ⟨_target_to_name R.dot R.homedir R.repodir (R.repodir ++ rel),
               R.repodir ++ rel⟩)) ∧
    (∀ (R : Repository) (fs : FSNode),
      List.Chain' (fun a b => nameLe a b = true) (contents R fs)) ∧
    contents R7 fs7 =
      [⟨["home", "a"], ["repo", "a"]⟩, ⟨["home", "m"], ["repo", "m"]⟩,
       ⟨["home", "z"], ["repo", "z"]⟩] := by
  refine ⟨?_, ?_, ?_⟩
  · intro R fs node hwf hlk d
    have hwn : wfFS node = true := lookup_wf hwf hlk
    rw [contents_eval R fs node hlk, mem_sortedByName, List.mem_map]
    constructor
    · rintro ⟨t, ht, rfl⟩
      obtain ⟨rel, hne, rfl, hfile, hign⟩ :=
        (_contents_mem_iff R.ignore node hwn R.repodir t).mp ht
      exact ⟨rel, hne, hfile, hign, rfl⟩
    · rintro ⟨rel, hne, hfile, hign, rfl⟩
      refine ⟨R.repodir ++ rel, ?_, rfl⟩
      exact (_contents_mem_iff R.ignore node hwn R.repodir _).mpr
        ⟨rel, hne, rfl, hfile, hign⟩
  · intro R fs
    simp only [contents]
    cases lookup fs R.repodir with
    | none => exact sortedByName_chain _
    | some node => exact sortedByName_chain _
  · rw [contents_eval R7 fs7 (.dir [("z", .file), ("a", .file), ("m", .file)])
      rfl]
    have hc : _contents R7.ignore R7.repodir
        (.dir [("z", .file), ("a", .file), ("m", .file)]) =
        [["repo", "z"], ["repo", "a"], ["repo", "m"]] := by
      simp [_contents_dir, _contents_file, isDirNode, R7]
    rw [hc]
    decide

/-- **C7 (witness)**: the membership characterization instantiated on
the `z`, `a`, `m` repository at the `Dotfile` for file `a`. -/
theorem C7_witness :
    (⟨["home", "a"], ["repo", "a"]⟩ : Dotfile) ∈ contents R7 fs7 ↔
      ∃ rel, rel ≠ [] ∧
        lookup (.dir [("z", .file), ("a", .file), ("m", .file)]) rel =
          some .file ∧
        (∀ s ∈ rel, R7.ignore.contains s = false) ∧
        (⟨["home", "a"], ["repo", "a"]⟩ : Dotfile) =
          ⟨_target_to_name R7.dot R7.homedir R7.repodir (R7.repodir ++ rel),
           R7.repodir ++ rel⟩ :=
  C7_theorem.1 R7 fs7 (.dir [("z", .file), ("a", .file), ("m", .file)])
    (by simp [fs7, wfFS_dir, wfFS_file]) rfl _

end DotfilesRepo
